import Mathlib

/-!
Verification of the token-supply dashboard core (src/app.py).

Shallow embedding of the three core components of `app.py`:

* `call_rpc` / `call_rpc_batch` (lines 22-60): retry loops around a
  physical HTTP POST.  The network is modelled as an attempt-indexed
  function `net : Nat → Option α`: `net k = some v` means the `k`-th
  physical attempt succeeds with parsed JSON body `v`, `net k = none`
  means it raises a `requests.exceptions.RequestException`.  Besides the
  result the embedding returns the number of physical attempts made and
  the list of `time.sleep` durations performed, so that resource claims
  can be stated.

* `get_closest_block_timestamp` (lines 62-91): binary search for a date
  over block numbers, against an `Oracle` abstracting the two RPC reads
  (`eth_blockNumber` and `eth_getBlockByNumber`, after hex parsing).
  `none` models an unavailable / malformed RPC response.  UTC calendar
  dates of `datetime.utcfromtimestamp` are modelled as `ts / 86400`
  (days since the epoch), which for non-negative timestamps preserves
  equality and order of calendar dates.

* `get_token_total_supplies` (lines 93-134) and
  `get_token_total_supplies_with_retries` (lines 136-142): batch request
  building, id-correlated decoding into a Python dict (modelled as an
  insertion-ordered association list with overwrite-on-assign), and the
  outer whole-batch retry loop.

Python's `int(s, 16)` (line 129) is embedded as `pythonIntHex`,
including its handling of surrounding ASCII whitespace, an optional
sign, an optional `0x`/`0X` prefix and PEP-515 underscores; a parse
failure (`ValueError`) is `none`.
-/

/-! ## Python `hex` and `int(_, 16)` -/

/-- Value of a hexadecimal digit character (`0`-`9`, `a`-`f`, `A`-`F`). -/
def hexVal (c : Char) : Nat :=
  if '0' ≤ c ∧ c ≤ '9' then c.toNat - 48
  else if 'a' ≤ c ∧ c ≤ 'f' then c.toNat - 87
  else c.toNat - 55

/-- Is `c` a hexadecimal digit? -/
def isHexDigit (c : Char) : Bool :=
  ('0' ≤ c && c ≤ '9') || ('a' ≤ c && c ≤ 'f') || ('A' ≤ c && c ≤ 'F')

/-- ASCII whitespace stripped by Python's `int` before parsing. -/
def isPySpace (c : Char) : Bool :=
  c = ' ' || c = '\t' || c = '\n' || c = '\x0d' || c = '\x0b' || c = '\x0c'

/-- Digit run of `int(s, 16)` after the first digit: hex digits with
single underscores allowed between digits (PEP 515). -/
def hexCore : List Char → Nat → Option Nat
  | [], acc => some acc
  | c :: rest, acc =>
    if c = '_' then
      match rest with
      | c2 :: rest2 => if isHexDigit c2 then hexCore rest2 (acc * 16 + hexVal c2) else none
      | [] => none
    else if isHexDigit c then hexCore rest (acc * 16 + hexVal c) else none

/-- A digit run must start with a hex digit (no leading underscore). -/
def parseDigitsStart : List Char → Option Nat
  | c :: rest => if isHexDigit c then hexCore rest (hexVal c) else none
  | [] => none

/-- After a `0x` prefix a single underscore may precede the first digit. -/
def parseDigitsAfterBase (cs : List Char) : Option Nat :=
  match cs with
  | c :: rest => if c = '_' then parseDigitsStart rest else parseDigitsStart cs
  | [] => parseDigitsStart []

/-- Unsigned part of `int(s, 16)`: optional `0x`/`0X` prefix, then digits. -/
def parseUnsignedHex (cs : List Char) : Option Nat :=
  match cs with
  | c0 :: c1 :: rest =>
    if c0 = '0' ∧ (c1 = 'x' ∨ c1 = 'X') then parseDigitsAfterBase rest
    else parseDigitsStart cs
  | _ => parseDigitsStart cs

/-- Python `int(s, 16)`: strip surrounding whitespace, optional sign,
optional `0x` prefix, hex digits with underscores; `none` models
`ValueError`.  Note Python accepts a sign, so the result is an `Int`
and may be negative. -/
def pythonIntHex (s : String) : Option Int :=
  let cs := ((s.data.dropWhile isPySpace).reverse.dropWhile isPySpace).reverse
  match cs with
  | c :: rest =>
    if c = '+' then (parseUnsignedHex rest).map Int.ofNat
    else if c = '-' then (parseUnsignedHex rest).map (fun n => -(Int.ofNat n))
    else (parseUnsignedHex (c :: rest)).map Int.ofNat
  | [] => (parseUnsignedHex []).map Int.ofNat

/-- Hex digit character used by Python's `hex` (lowercase). -/
def hexDigitChar (n : Nat) : Char :=
  if n < 10 then Char.ofNat (48 + n) else Char.ofNat (87 + n)

/-- Digits of `n` in base 16, most significant first (accumulator form). -/
def natHexDigits : Nat → List Char → List Char
  | 0, acc => acc
  | n + 1, acc => natHexDigits ((n + 1) / 16) (hexDigitChar ((n + 1) % 16) :: acc)
  decreasing_by exact Nat.div_lt_self (Nat.succ_pos n) (by omega)

/-- Python `hex(n)` for a non-negative `n`: `"0x"` followed by lowercase
hex digits (`"0x0"` for zero). -/
def pyHex (n : Nat) : String :=
  if n = 0 then ("0x0") else ⟨'0' :: 'x' :: natHexDigits n []⟩

/-! ## RpcTransport: `call_rpc` and `call_rpc_batch` (lines 22-60) -/

/-- Loop body shared by `call_rpc` and `call_rpc_batch`
(`for attempt in range(retries)`), keeping the attempt index.  Returns
the outcome, the number of physical attempts made, and the list of
`time.sleep` durations performed (a sleep happens after a failed
attempt only when `attempt < retries - 1`). -/
def rpcAttemptLoop (net : Nat → Option α) (delay : Nat) :
    Nat → Nat → Option α × Nat × List Nat
  | _, 0 => (none, 0, [])
  | attempt, r + 1 =>
    match net attempt with
    | some v => (some v, 1, [])
    | none =>
      if r > 0 then
        let rec' := rpcAttemptLoop net delay (attempt + 1) r
        (rec'.1, rec'.2.1 + 1, delay :: rec'.2.2)
      else (none, 1, [])

/-- Function `call_rpc` (lines 22-43): single-request execution with bounded
retries; `none` models returning `None` after all attempts failed. -/
def call_rpc (net : Nat → Option α) (retries : Nat) (delay : Nat) :
    Option α × Nat × List Nat :=
  rpcAttemptLoop net delay 0 retries

/-- Function `call_rpc_batch` (lines 45-60): identical retry skeleton around the
batched POST. -/
def call_rpc_batch (net : Nat → Option α) (retries : Nat) (delay : Nat) :
    Option α × Nat × List Nat :=
  rpcAttemptLoop net delay 0 retries

/-! ## BlockTimestampResolver: `get_closest_block_timestamp` (lines 62-91) -/

/-- Abstraction of the two chain reads used by the resolver, after the
hex parsing done on lines 68 and 79.  `latestBlockNumber = none` models
`call_rpc("eth_blockNumber", [])` returning `None` or a dict without a
`"result"` key; `blockTimestamp b = none` models the same for
`call_rpc("eth_getBlockByNumber", [hex(b), False])`. -/
structure Oracle where
  latestBlockNumber : Option Nat
  blockTimestamp : Nat → Option Nat

/-- UTC calendar date of `datetime.utcfromtimestamp(ts).date()`, as a
day index since the epoch: for non-negative timestamps two timestamps
fall on the same calendar date iff `ts / 86400` agree, and date order
is the order of `ts / 86400`. -/
def dateOf (ts : Nat) : Nat := ts / 86400

/-- The `while low <= high` loop of lines 72-91.  `low` stays a natural
number (it starts at `0` and only moves to `mid + 1`); `high` is an
integer because Python's `high = mid - 1` may reach `-1`.  The second
component counts the `eth_getBlockByNumber` oracle calls issued. -/
def searchLoop (O : Oracle) (targetDate : Nat) :
    Nat → Int → Option (Nat × Nat) → Option (Nat × Nat) × Nat
  | low, high, chosen =>
    if _h : (low : Int) ≤ high then
      let mid : Nat := (low + high.toNat) / 2
      match O.blockTimestamp mid with
      | none => (none, 1)
      | some ts =>
        if dateOf ts = targetDate then (some (mid, ts), 1)
        else if dateOf ts < targetDate then
          let r := searchLoop O targetDate (mid + 1) high (some (mid, ts))
          (r.1, r.2 + 1)
        else
          let r := searchLoop O targetDate low ((mid : Int) - 1) chosen
          (r.1, r.2 + 1)
    else (chosen, 0)
  termination_by low high _ => (high + 1 - low).toNat
  decreasing_by all_goals omega

/-- Function `get_closest_block_timestamp` (lines 62-91): fetch the chain head,
then binary-search `[0, head]` for the target date.  The result pairs
the outcome (`none` models `return None, None`; `some (b, ts)` models
returning block number `b` and the datetime of timestamp `ts`) with
the number of block-header oracle calls issued. -/
def get_closest_block_timestamp (O : Oracle) (targetDate : Nat) :
    Option (Nat × Nat) × Nat :=
  match O.latestBlockNumber with
  | none => (none, 0)
  | some latest => searchLoop O targetDate 0 (latest : Int) none

/-! ## BatchStateReader: `get_token_total_supplies` (lines 93-134) -/

/-- A configured token (lines 16-20). -/
structure Token where
  name : String
  contract : String
  decimals : Nat
  deriving DecidableEq

/-- The `TOKENS` table of lines 16-20. -/
def TOKENS : List Token :=
  [⟨"USDC", "0x3894085Ef7Ff0f0aeDf52E2A2704928d1Ec074F1", 6⟩,
   ⟨"USDT", "0xB75D0B03c06A926e488e2659DF1A861F860bD3d1", 6⟩,
   ⟨"SFASTUSD", "0x37a4dd9ced2b19cfe8fac251cd727b5787e45269", 18⟩]

/-- One request of the batch payload built on lines 97-108. -/
structure RpcRequest where
  jsonrpc : String
  id : Nat
  method : String
  callTo : String
  callData : String
  blockTag : String
  deriving DecidableEq

/-- One entry of the decoded batch response (lines 119-121 read it with
`resp.get("id")` and `resp.get("result")`, so both fields may be
absent). -/
structure RpcResp where
  id : Option Nat
  result : Option String
  deriving DecidableEq

/-- The batch payload of lines 94-110: one `eth_call` per token, with
`id = i` the position of the token in `TOKENS`. -/
def buildBatchPayload (block_number : Nat) : List RpcRequest :=
  (List.range TOKENS.length).filterMap fun i =>
    (TOKENS[i]?).map fun token =>
      { jsonrpc := "2.0", id := i, method := "eth_call",
        callTo := token.contract, callData := "0x18160ddd",
        blockTag := pyHex block_number }

/-- The `id_to_token` dictionary of lines 95-110: the enumerate index
maps to the token at that position. -/
def id_to_token (respId : Option Nat) : Option Token :=
  match respId with
  | none => none
  | some i => TOKENS[i]?

/-- Decoding of one response result (lines 125-131): absent, `"0x"` and
`"0x0"` are the integer `0`; anything else goes through `int(_, 16)`,
with `ValueError` (`none`) recorded as Python `None` (Unavailable). -/
def decodeResult (result_hex : Option String) : Option Int :=
  match result_hex with
  | none => some 0
  | some s =>
    if s = "0x" ∨ s = "0x0" then some 0
    else pythonIntHex s

/-- Python `dict` assignment `d[k] = v`: overwrite in place if the key
exists, else append. -/
def dictSet (d : List (String × Option Int)) (k : String) (v : Option Int) :
    List (String × Option Int) :=
  if (d.lookup k).isSome then
    d.map fun p => if p.1 = k then (k, v) else p
  else d ++ [(k, v)]

/-- The response loop of lines 119-132: responses whose id is missing
or matches no token are skipped (`continue`); others store the decoded
value under the token's name. -/
def processResponses (acc : List (String × Option Int)) :
    List RpcResp → List (String × Option Int)
  | [] => acc
  | r :: rest =>
    match id_to_token r.id with
    | none => processResponses acc rest
    | some tok => processResponses (dictSet acc tok.name (decodeResult r.result)) rest

/-- Function `get_token_total_supplies` (lines 93-134).  The physical transport
is abstracted as `post : List RpcRequest → Nat → Option (List RpcResp)`:
`post payload k` is the parsed body of the `k`-th POST attempt for
`payload` (`none` a transport failure), fed through `call_rpc_batch`
with its default `retries=3, delay=1` exactly as on line 112. -/
def get_token_total_supplies
    (post : List RpcRequest → Nat → Option (List RpcResp)) (block_number : Nat) :
    List (String × Option Int) :=
  let payload := buildBatchPayload block_number
  match (call_rpc_batch (post payload) 3 1).1 with
  | none => TOKENS.map fun token => (token.name, none)
  | some responses => processResponses [] responses

/-- Python truthiness test of line 139:
`supplies and all(supply is not None for supply in supplies.values())`. -/
def suppliesComplete (d : List (String × Option Int)) : Bool :=
  !d.isEmpty && d.all fun p => p.2.isSome

/-- The `for attempt in range(max_retries)` loop of lines 137-141.
`post2 attempt` is the transport behaviour seen by the batch submitted
on outer attempt `attempt`. -/
def withRetriesLoop
    (post2 : Nat → List RpcRequest → Nat → Option (List RpcResp))
    (block_number : Nat) :
    Nat → Nat → Option (List (String × Option Int))
  | _, 0 => none
  | attempt, r + 1 =>
    let supplies := get_token_total_supplies (post2 attempt) block_number
    if suppliesComplete supplies then some supplies
    else withRetriesLoop post2 block_number (attempt + 1) r

/-- Function `get_token_total_supplies_with_retries` (lines 136-142): re-run the
whole batch while some entry is `None`; after `max_retries` attempts
return `None` (line 142). -/
def get_token_total_supplies_with_retries
    (post2 : Nat → List RpcRequest → Nat → Option (List RpcResp))
    (block_number : Nat) (max_retries : Nat) :
    Option (List (String × Option Int)) :=
  withRetriesLoop post2 block_number 0 max_retries

/-! ## Transport lemmas -/

/-- The attempt loop performs at most `r` physical attempts. -/
theorem rpcAttemptLoop_attempts_le (net : Nat → Option α) (delay : Nat) :
    ∀ r attempt, (rpcAttemptLoop net delay attempt r).2.1 ≤ r := by
  intro r
  induction r with
  | zero => intro attempt; simp [rpcAttemptLoop]
  | succ r ih =>
    intro attempt
    simp only [rpcAttemptLoop]
    cases net attempt with
    | some v => simp
    | none =>
      by_cases hr : r > 0
      · simpa [hr] using Nat.succ_le_succ (ih (attempt + 1))
      · simp [hr]

/-- Every sleep performed by the attempt loop has the fixed duration. -/
theorem rpcAttemptLoop_delays (net : Nat → Option α) (delay : Nat) :
    ∀ r attempt, ∀ x ∈ (rpcAttemptLoop net delay attempt r).2.2, x = delay := by
  intro r
  induction r with
  | zero => intro attempt; simp [rpcAttemptLoop]
  | succ r ih =>
    intro attempt
    simp only [rpcAttemptLoop]
    cases net attempt with
    | some v => simp
    | none =>
      by_cases hr : r > 0
      · simp only [hr, if_true]
        intro x hx
        rcases List.mem_cons.mp hx with h | h
        · exact h
        · exact ih (attempt + 1) x h
      · simp [hr]

/-- If every attempt in the window fails, the loop returns `none` after
exactly `r` attempts. -/
theorem rpcAttemptLoop_all_fail (net : Nat → Option α) (delay : Nat) :
    ∀ r attempt, (∀ k, attempt ≤ k → k < attempt + r → net k = none) →
      (rpcAttemptLoop net delay attempt r).1 = none ∧
      (rpcAttemptLoop net delay attempt r).2.1 = r := by
  intro r
  induction r with
  | zero => intro attempt _; simp [rpcAttemptLoop]
  | succ r ih =>
    intro attempt hfail
    have h0 : net attempt = none := hfail attempt (Nat.le_refl _) (by omega)
    simp only [rpcAttemptLoop, h0]
    by_cases hr : r > 0
    · have := ih (attempt + 1) (fun k hk1 hk2 => hfail k (by omega) (by omega))
      simp [hr, this.1, this.2]
    · have : r = 0 := by omega
      simp [hr, this]

/-- C6: `call_rpc` and `call_rpc_batch` make at most `retries` physical
attempts, every inter-attempt sleep has the fixed duration `delay`, and
when every attempt fails they return `None` (Unavailable) instead of
propagating the transport exception. -/
theorem call_rpc_retry_policy {α β : Type} (net : Nat → Option α)
    (netB : Nat → Option β) (retries delay : Nat) :
    (call_rpc net retries delay).2.1 ≤ retries ∧
    (call_rpc_batch netB retries delay).2.1 ≤ retries ∧
    (∀ x ∈ (call_rpc net retries delay).2.2, x = delay) ∧
    (∀ x ∈ (call_rpc_batch netB retries delay).2.2, x = delay) ∧
    ((∀ k, k < retries → net k = none) → (call_rpc net retries delay).1 = none) ∧
    ((∀ k, k < retries → netB k = none) → (call_rpc_batch netB retries delay).1 = none) := by
  refine ⟨rpcAttemptLoop_attempts_le net delay retries 0,
          rpcAttemptLoop_attempts_le netB delay retries 0,
          rpcAttemptLoop_delays net delay retries 0,
          rpcAttemptLoop_delays netB delay retries 0, ?_, ?_⟩
  · intro hfail
    exact (rpcAttemptLoop_all_fail net delay retries 0
      (fun k _ hk => hfail k (by omega))).1
  · intro hfail
    exact (rpcAttemptLoop_all_fail netB delay retries 0
      (fun k _ hk => hfail k (by omega))).1

/-- C6 witness: with a transport that always fails, three attempts with
unit delay yield `None` for both the single and the batched call. -/
theorem call_rpc_retry_policy_witness :
    (call_rpc (fun _ => (none : Option Nat)) 3 1).1 = none ∧
    (call_rpc_batch (fun _ => (none : Option (List Nat))) 3 1).1 = none := by
  have h := call_rpc_retry_policy (fun _ => (none : Option Nat))
    (fun _ => (none : Option (List Nat))) 3 1
  exact ⟨h.2.2.2.2.1 (fun k _ => rfl), h.2.2.2.2.2 (fun k _ => rfl)⟩

/-! ## Resolver lemmas -/

/-- Crossed bounds: the loop exits returning the recorded candidate and
issues no oracle call. -/
theorem searchLoop_empty (O : Oracle) (d : Nat) (low : Nat) (high : Int)
    (chosen : Option (Nat × Nat)) (h : ¬ ((low : Int) ≤ high)) :
    searchLoop O d low high chosen = (chosen, 0) := by
  rw [searchLoop]
  simp [h]

/-- An unavailable midpoint fetch aborts the whole search at once: one
oracle call, no result, regardless of any candidate already found. -/
theorem searchLoop_fetch_unavailable (O : Oracle) (d : Nat) (low : Nat)
    (high : Int) (chosen : Option (Nat × Nat)) (h : (low : Int) ≤ high)
    (hbt : O.blockTimestamp ((low + high.toNat) / 2) = none) :
    searchLoop O d low high chosen = (none, 1) := by
  rw [searchLoop]
  simp [h, hbt]

/-- C5: if the latest-block oracle call is Unavailable the resolver
returns NotFound with zero block-header calls; and whenever the bounds
are open and the midpoint header fetch is Unavailable, the search
returns NotFound immediately after that single call — in particular a
resolver whose head is known but whose first midpoint fetch fails
returns NotFound after exactly one block-header call. -/
theorem resolve_unavailable_aborts (O : Oracle) (targetDate : Nat) :
    (O.latestBlockNumber = none →
      get_closest_block_timestamp O targetDate = (none, 0)) ∧
    (∀ (low : Nat) (high : Int) (chosen : Option (Nat × Nat)),
      (low : Int) ≤ high → O.blockTimestamp ((low + high.toNat) / 2) = none →
      searchLoop O targetDate low high chosen = (none, 1)) ∧
    (∀ head : Nat, O.latestBlockNumber = some head →
      O.blockTimestamp (head / 2) = none →
      get_closest_block_timestamp O targetDate = (none, 1)) := by
  refine ⟨?_, ?_, ?_⟩
  · intro h
    simp [get_closest_block_timestamp, h]
  · intro low high chosen hle hbt
    exact searchLoop_fetch_unavailable O targetDate low high chosen hle hbt
  · intro head hh hbt
    simp only [get_closest_block_timestamp, hh]
    exact searchLoop_fetch_unavailable O targetDate 0 (head : Int) none
      (by omega) (by simpa using hbt)

/-- Oracle with an unavailable latest-block call. -/
def oracleNoHead : Oracle := ⟨none, fun _ => some 0⟩

/-- Oracle whose head is known but every block-header fetch fails. -/
def oracleAllFetchFail : Oracle := ⟨some 10, fun _ => none⟩

/-- C5 witness: both unavailability modes on concrete oracles. -/
theorem resolve_unavailable_aborts_witness :
    get_closest_block_timestamp oracleNoHead 3 = (none, 0) ∧
    get_closest_block_timestamp oracleAllFetchFail 3 = (none, 1) := by
  refine ⟨(resolve_unavailable_aborts oracleNoHead 3).1 rfl, ?_⟩
  exact (resolve_unavailable_aborts oracleAllFetchFail 3).2.2 10 rfl rfl

/-- Each loop iteration halves the search interval, so the number of
block-header oracle calls is logarithmic in the interval size. -/
theorem searchLoop_calls_le (O : Oracle) (d : Nat) :
    ∀ n (low : Nat) (high : Int) (chosen : Option (Nat × Nat)),
      (high + 1 - low).toNat ≤ n →
      (searchLoop O d low high chosen).2 ≤ Nat.log2 n + 1 := by
  intro n
  induction n using Nat.strong_induction_on with
  | _ n ih =>
    intro low high chosen hsize
    rw [searchLoop]
    by_cases h : (low : Int) ≤ high
    · rw [dif_pos h]
      have hhigh0 : (0 : Int) ≤ high := le_trans (by omega) h
      have hm : ((low + high.toNat) / 2 : Nat) ≤ high.toNat ∧
          low ≤ ((low + high.toNat) / 2 : Nat) := by omega
      cases hbt : O.blockTimestamp ((low + high.toNat) / 2) with
      | none => simp [hbt]
      | some ts =>
        simp only [hbt]
        by_cases heq : dateOf ts = d
        · simp [heq]
        · by_cases hlt : dateOf ts < d
          · simp only [heq, hlt, if_true, if_false]
            rcases Nat.lt_or_ge n 2 with hn | hn
            · -- interval has a single block; the recursive interval is empty
              have hempty : ¬ ((((low + high.toNat) / 2 + 1 : Nat) : Int) ≤ high) := by
                omega
              rw [searchLoop_empty O d _ high _ hempty]
              simp
            · have hrecsize : (high + 1 - ((low + high.toNat) / 2 + 1 : Nat)).toNat ≤ n / 2 := by
                omega
              have hrec := ih (n / 2) (by omega) ((low + high.toNat) / 2 + 1) high
                (some ((low + high.toNat) / 2, ts)) hrecsize
              have hlog : Nat.log2 n = Nat.log2 (n / 2) + 1 := by
                rw [Nat.log2]
                simp [hn]
              show (searchLoop O d ((low + high.toNat) / 2 + 1) high
                (some ((low + high.toNat) / 2, ts))).2 + 1 ≤ Nat.log2 n + 1
              omega
          · simp only [heq, hlt, if_false]
            rcases Nat.lt_or_ge n 2 with hn | hn
            · have hempty : ¬ ((low : Int) ≤ (((low + high.toNat) / 2 : Nat) : Int) - 1) := by
                omega
              rw [searchLoop_empty O d low _ chosen hempty]
              simp
            · have hrecsize :
                  ((((low + high.toNat) / 2 : Nat) : Int) - 1 + 1 - low).toNat ≤ n / 2 := by
                omega
              have hrec := ih (n / 2) (by omega) low ((((low + high.toNat) / 2 : Nat) : Int) - 1)
                chosen hrecsize
              have hlog : Nat.log2 n = Nat.log2 (n / 2) + 1 := by
                rw [Nat.log2]
                simp [hn]
              show (searchLoop O d low ((((low + high.toNat) / 2 : Nat) : Int) - 1)
                chosen).2 + 1 ≤ Nat.log2 n + 1
              omega
    · rw [dif_neg h]
      simp

/-- C8: for any oracle and target date, once the head is known the
binary-search loop terminates (the recursion is well-founded by
construction) and issues at most `⌊log2 (head + 1)⌋ + 1` block-header
oracle calls, on top of the single latest-block call. -/
theorem resolve_call_count_bound (O : Oracle) (targetDate head : Nat)
    (hh : O.latestBlockNumber = some head) :
    (get_closest_block_timestamp O targetDate).2 ≤ Nat.log2 (head + 1) + 1 := by
  simp only [get_closest_block_timestamp, hh]
  exact searchLoop_calls_le O targetDate (head + 1) 0 (head : Int) none (by omega)

/-- C8 witness: with head block `10` the resolver issues at most
`⌊log2 11⌋ + 1 = 4` block-header calls. -/
theorem resolve_call_count_bound_witness :
    (get_closest_block_timestamp oracleAllFetchFail 3).2 ≤ Nat.log2 11 + 1 :=
  resolve_call_count_bound oracleAllFetchFail 3 10 rfl

/-- Soundness invariant of the loop: any returned block lies below the
initial upper bound, carries its own oracle timestamp, and its date is
on or before the target.  No totality or monotonicity of the oracle is
needed. -/
theorem searchLoop_sound (O : Oracle) (d H : Nat) :
    ∀ n (low : Nat) (high : Int) (chosen : Option (Nat × Nat)),
      (high + 1 - low).toNat ≤ n →
      high ≤ (H : Int) →
      (∀ c tc, chosen = some (c, tc) →
        c ≤ H ∧ O.blockTimestamp c = some tc ∧ dateOf tc < d) →
      ∀ b ts, (searchLoop O d low high chosen).1 = some (b, ts) →
        b ≤ H ∧ O.blockTimestamp b = some ts ∧ dateOf ts ≤ d := by
  intro n
  induction n using Nat.strong_induction_on with
  | _ n ih =>
    intro low high chosen hsize hH hchosen b ts hres
    rw [searchLoop] at hres
    by_cases h : (low : Int) ≤ high
    · rw [dif_pos h] at hres
      have hhigh0 : (0 : Int) ≤ high := le_trans (by omega) h
      have hmid : ((low + high.toNat) / 2 : Nat) ≤ high.toNat ∧
          low ≤ ((low + high.toNat) / 2 : Nat) := by omega
      cases hbt : O.blockTimestamp ((low + high.toNat) / 2) with
      | none => simp [hbt] at hres
      | some tsm =>
        simp only [hbt] at hres
        by_cases heq : dateOf tsm = d
        · rw [if_pos heq] at hres
          simp only [Prod.fst] at hres
          rcases Option.some.inj hres with h2
          rcases Prod.mk.injEq _ _ _ _ ▸ h2 with ⟨hb, hts⟩
          subst hb; subst hts
          exact ⟨by omega, hbt, le_of_eq heq⟩
        · rw [if_neg heq] at hres
          by_cases hlt : dateOf tsm < d
          · rw [if_pos hlt] at hres
            simp only [Prod.fst] at hres
            refine ih ((high + 1 - ((low + high.toNat) / 2 + 1 : Nat)).toNat)
              (by omega) _ _ _ (le_refl _) hH ?_ b ts hres
            intro c tc hc
            rcases Option.some.inj hc with h2
            rcases Prod.mk.injEq _ _ _ _ ▸ h2 with ⟨hb, hts⟩
            subst hb; subst hts
            exact ⟨by omega, hbt, hlt⟩
          · rw [if_neg hlt] at hres
            simp only [Prod.fst] at hres
            exact ih (((((low + high.toNat) / 2 : Nat) : Int) - 1 + 1 - low).toNat)
              (by omega) _ _ _ (le_refl _) (by omega) hchosen b ts hres
    · rw [dif_neg h] at hres
      exact And.imp_right (And.imp_right le_of_lt) (hchosen b ts hres)

/-- C10: on a monotone chain, a non-NotFound result of the resolver is
a block number within `[0, head]` whose own oracle timestamp falls on
or before the target date. -/
theorem resolve_sound (O : Oracle) (targetDate head : Nat)
    (hh : O.latestBlockNumber = some head)
    (_hmono : ∀ i j ti tj, i ≤ j → j ≤ head → O.blockTimestamp i = some ti →
      O.blockTimestamp j = some tj → ti ≤ tj)
    (b ts : Nat)
    (hres : (get_closest_block_timestamp O targetDate).1 = some (b, ts)) :
    b ≤ head ∧ O.blockTimestamp b = some ts ∧ dateOf ts ≤ targetDate := by
  rw [get_closest_block_timestamp, hh] at hres
  exact searchLoop_sound O targetDate head (head + 1) 0 (head : Int) none
    (by omega) (le_refl _) (by intro c tc hc; cases hc) b ts hres

/-- The spec's synthetic chain: head block 100, block `n` stamped at
day `n` since the epoch. -/
def oracleLinear : Oracle := ⟨some 100, fun b => some (86400 * b)⟩

/-- C10 witness: on the synthetic linear chain, resolving day 4 returns
block 4 at timestamp 345600, within bounds and on the target date. -/
theorem resolve_sound_witness :
    4 ≤ 100 ∧ oracleLinear.blockTimestamp 4 = some 345600 ∧ dateOf 345600 ≤ 4 := by
  refine resolve_sound oracleLinear 4 100 rfl ?_ 4 345600 ?_
  · intro i j ti tj hij hj hti htj
    simp only [oracleLinear] at hti htj
    have h1 := Option.some.inj hti
    have h2 := Option.some.inj htj
    omega
  · simp [get_closest_block_timestamp, searchLoop, oracleLinear, dateOf]

/-- Dates are monotone in timestamps. -/
theorem dateOf_mono {a b : Nat} (h : a ≤ b) : dateOf a ≤ dateOf b :=
  Nat.div_le_div_right h

/-- Full characterization of the loop on a total, monotone oracle
segment `[0, H]`: a `none` outcome means every block's date is after
the target; a `some (b, ts)` outcome carries the block's own timestamp
with date on or before the target, and when that date is strictly
before the target every later block is strictly after the target. -/
theorem searchLoop_correct (O : Oracle) (d H : Nat)
    (htot : ∀ k : Nat, k ≤ H → (O.blockTimestamp k).isSome)
    (hmono : ∀ i j ti tj : Nat, i ≤ j → j ≤ H → O.blockTimestamp i = some ti →
      O.blockTimestamp j = some tj → ti ≤ tj) :
    ∀ n (low : Nat) (high : Int) (chosen : Option (Nat × Nat)),
      (high + 1 - low).toNat ≤ n →
      high ≤ (H : Int) →
      (∀ k ts : Nat, k < low → k ≤ H → O.blockTimestamp k = some ts →
        dateOf ts < d) →
      (∀ k ts : Nat, high < (k : Int) → k ≤ H → O.blockTimestamp k = some ts →
        d < dateOf ts) →
      ((chosen = none ∧ low = 0) ∨
        (∃ c tc : Nat, chosen = some (c, tc) ∧ (c : Int) + 1 = (low : Int) ∧
          c ≤ H ∧ O.blockTimestamp c = some tc)) →
      (((searchLoop O d low high chosen).1 = none →
          ∀ k ts : Nat, k ≤ H → O.blockTimestamp k = some ts → d < dateOf ts) ∧
        (∀ b ts : Nat, (searchLoop O d low high chosen).1 = some (b, ts) →
          b ≤ H ∧ O.blockTimestamp b = some ts ∧ dateOf ts ≤ d ∧
          (dateOf ts < d → ∀ k ts' : Nat, b < k → k ≤ H →
            O.blockTimestamp k = some ts' → d < dateOf ts'))) := by
  intro n
  induction n using Nat.strong_induction_on with
  | _ n ih =>
    intro low high chosen hsize hH hlowinv hhighinv hchosen
    by_cases h : (low : Int) ≤ high
    · have hhigh0 : (0 : Int) ≤ high := le_trans (by omega) h
      have hmidb : ((low + high.toNat) / 2 : Nat) ≤ high.toNat ∧
          low ≤ ((low + high.toNat) / 2 : Nat) := by omega
      have hmidH : ((low + high.toNat) / 2 : Nat) ≤ H := by omega
      cases hbt : O.blockTimestamp ((low + high.toNat) / 2) with
      | none =>
        have := htot ((low + high.toNat) / 2) hmidH
        rw [hbt] at this
        simp at this
      | some tsm =>
        by_cases heq : dateOf tsm = d
        · have hstep : (searchLoop O d low high chosen).1 =
              some ((low + high.toNat) / 2, tsm) := by
            rw [searchLoop, dif_pos h]
            simp [hbt, heq]
          constructor
          · intro hres
            rw [hstep] at hres
            cases hres
          · intro b ts hres
            rw [hstep] at hres
            simp only [Option.some.injEq, Prod.mk.injEq] at hres
            obtain ⟨hb, hts⟩ := hres
            subst hb
            subst hts
            exact ⟨hmidH, hbt, le_of_eq heq, fun hc => absurd heq (by omega)⟩
        · by_cases hlt : dateOf tsm < d
          · have hstep : (searchLoop O d low high chosen).1 =
                (searchLoop O d ((low + high.toNat) / 2 + 1) high
                  (some ((low + high.toNat) / 2, tsm))).1 := by
              rw [searchLoop, dif_pos h]
              simp [hbt, heq, hlt]
            rw [hstep]
            have hdec1 : (high + 1 - ((low + high.toNat) / 2 + 1 : Nat)).toNat < n := by
              clear hchosen ih hlowinv hhighinv
              omega
            refine ih ((high + 1 - ((low + high.toNat) / 2 + 1 : Nat)).toNat)
              hdec1 ((low + high.toNat) / 2 + 1) high
              (some ((low + high.toNat) / 2, tsm)) (le_refl _) hH ?_ hhighinv ?_
            · intro k tk hk hkH hbtk
              have hkm : k ≤ (low + high.toNat) / 2 := by omega
              have hmle := hmono k ((low + high.toNat) / 2) tk tsm hkm hmidH hbtk hbt
              have := dateOf_mono hmle
              omega
            · exact Or.inr ⟨(low + high.toNat) / 2, tsm, rfl, by omega, hmidH, hbt⟩
          · have hstep : (searchLoop O d low high chosen).1 =
                (searchLoop O d low ((((low + high.toNat) / 2 : Nat) : Int) - 1)
                  chosen).1 := by
              rw [searchLoop, dif_pos h]
              simp [hbt, heq, hlt]
            rw [hstep]
            have hdec2 : (((((low + high.toNat) / 2 : Nat) : Int) - 1 + 1 - low)).toNat < n := by
              clear hchosen ih hlowinv hhighinv
              omega
            have hH2 : ((((low + high.toNat) / 2 : Nat) : Int) - 1) ≤ (H : Int) := by
              omega
            refine ih (((((low + high.toNat) / 2 : Nat) : Int) - 1 + 1 - low).toNat)
              hdec2 low ((((low + high.toNat) / 2 : Nat) : Int) - 1) chosen
              (le_refl _) hH2 hlowinv ?_ hchosen
            intro k tk hk hkH hbtk
            have hkm : (low + high.toNat) / 2 ≤ k := by omega
            have hmle := hmono ((low + high.toNat) / 2) k tsm tk hkm hkH hbt hbtk
            have := dateOf_mono hmle
            omega
    · have hstep : searchLoop O d low high chosen = (chosen, 0) :=
        searchLoop_empty O d low high chosen h
      rcases hchosen with ⟨hc, hlow0⟩ | ⟨c, tc, hc, hc1, hcH, hcbt⟩
      · constructor
        · intro _ k ts hkH hbtk
          exact hhighinv k ts (by omega) hkH hbtk
        · intro b ts hres
          rw [hstep, hc] at hres
          cases hres
      · constructor
        · intro hres
          rw [hstep, hc] at hres
          cases hres
        · intro b ts hres
          rw [hstep, hc] at hres
          simp only [Option.some.injEq, Prod.mk.injEq] at hres
          obtain ⟨hb, hts⟩ := hres
          subst hb
          subst hts
          have hdc : dateOf tc < d := hlowinv c tc (by omega) hcH hcbt
          refine ⟨hcH, hcbt, le_of_lt hdc, ?_⟩
          intro _ k ts' hbk hkH hbtk
          exact hhighinv k ts' (by omega) hkH hbtk

/-- C1 (amended): on a total, monotone chain the resolver returns
NotFound exactly when no block's date is on or before the target;
otherwise it returns a block whose date is on or before the target —
when that date is strictly before the target it is the greatest block
with date on or before the target, while an exact-date hit is returned
as soon as the search lands on it and need not be the greatest block of
that date. -/
theorem resolve_correct (O : Oracle) (targetDate head : Nat)
    (hh : O.latestBlockNumber = some head)
    (htot : ∀ k : Nat, k ≤ head → (O.blockTimestamp k).isSome)
    (hmono : ∀ i j ti tj : Nat, i ≤ j → j ≤ head → O.blockTimestamp i = some ti →
      O.blockTimestamp j = some tj → ti ≤ tj) :
    (((get_closest_block_timestamp O targetDate).1 = none →
        ∀ k ts : Nat, k ≤ head → O.blockTimestamp k = some ts →
          targetDate < dateOf ts) ∧
      (∀ b ts : Nat, (get_closest_block_timestamp O targetDate).1 = some (b, ts) →
        b ≤ head ∧ O.blockTimestamp b = some ts ∧ dateOf ts ≤ targetDate ∧
        (dateOf ts < targetDate → ∀ k ts' : Nat, b < k → k ≤ head →
          O.blockTimestamp k = some ts' → targetDate < dateOf ts'))) := by
  simp only [get_closest_block_timestamp, hh]
  refine searchLoop_correct O targetDate head htot hmono (head + 1) 0 (head : Int)
    none (by omega) (le_refl _) ?_ ?_ (Or.inl ⟨rfl, rfl⟩)
  · intro k ts hk _ _
    exact absurd hk (Nat.not_lt_zero k)
  · intro k ts h1 h2 _
    omega

/-- Chain with a block every other day: head 10, block `b` at day `2 b`. -/
def oracleSparse : Oracle := ⟨some 10, fun b => some (172800 * b)⟩

/-- C1 witness: resolving day 5 on the sparse chain returns block 2
(day 4), the greatest block on or before day 5; block 3 (day 6) is
after the target. -/
theorem resolve_correct_witness :
    2 ≤ 10 ∧ oracleSparse.blockTimestamp 2 = some 345600 ∧
    dateOf 345600 ≤ 5 ∧ 5 < dateOf 518400 := by
  have hc := resolve_correct oracleSparse 5 10 rfl (fun _ _ => rfl) ?_
  · have h := hc.2 2 345600 ?_
    · exact ⟨h.1, h.2.1, h.2.2.1, h.2.2.2 (by decide) 3 518400 (by omega)
        (by omega) rfl⟩
    · simp [get_closest_block_timestamp, searchLoop, oracleSparse, dateOf]
  · intro i j ti tj hij hj hti htj
    simp only [oracleSparse] at hti htj
    have h1 := Option.some.inj hti
    have h2 := Option.some.inj htj
    omega

/-- Chain with three blocks all on the same calendar day. -/
def oracleFlat : Oracle := ⟨some 2, fun _ => some 0⟩

/-- C1 counterexample: on a monotone chain whose blocks 0, 1, 2 all
fall on the target date, the resolver returns block 1 (the first exact
date hit of the search), not the greatest block (block 2) whose date is
on or before the target. -/
theorem resolve_not_greatest :
    (get_closest_block_timestamp oracleFlat 0).1 = some (1, 0) ∧
    oracleFlat.latestBlockNumber = some 2 ∧
    oracleFlat.blockTimestamp 2 = some 0 ∧ dateOf 0 ≤ 0 ∧ (1 : Nat) < 2 := by
  refine ⟨?_, rfl, rfl, le_refl 0, by omega⟩
  simp [get_closest_block_timestamp, searchLoop, oracleFlat, dateOf]

/-! ## Batch reader lemmas -/

/-- The three configured token names are pairwise distinct, so a token
index is determined by its name. -/
theorem tokens_name_inj (i j : Nat) (t t' : Token)
    (hi : TOKENS[i]? = some t) (hj : TOKENS[j]? = some t')
    (hn : t.name = t'.name) : i = j := by
  have hi3 : i < 3 := by
    by_contra hc
    rw [List.getElem?_eq_none (by simp [TOKENS]; omega)] at hi
    cases hi
  have hj3 : j < 3 := by
    by_contra hc
    rw [List.getElem?_eq_none (by simp [TOKENS]; omega)] at hj
    cases hj
  interval_cases i <;> interval_cases j <;> simp_all [TOKENS] <;>
    (subst hi; subst hj; exact absurd hn (by decide))

/-- Unfolding of `List.lookup` on a cons cell, with a propositional
condition. -/
theorem lookup_cons (k' a : String) (b : Option Int)
    (rest : List (String × Option Int)) :
    List.lookup k' ((a, b) :: rest) =
      if k' = a then some b else List.lookup k' rest := by
  cases hba : k' == a
  · rw [if_neg (by simpa using hba)]
    simp [List.lookup, hba]
  · rw [if_pos (by simpa using hba)]
    simp [List.lookup, hba]

/-- Lookup after an in-place overwrite of key `k`. -/
theorem lookup_map_replace (d : List (String × Option Int)) (k : String)
    (v : Option Int) (k' : String) :
    List.lookup k' (d.map fun p => if p.1 = k then (k, v) else p) =
      if k' = k then (List.lookup k d).map (fun _ => v) else List.lookup k' d := by
  induction d with
  | nil => simp [List.lookup]
  | cons p rest ih =>
    obtain ⟨a, b⟩ := p
    rw [List.map_cons]
    by_cases hak : a = k
    · subst hak
      rw [show (if (a, b).1 = a then (a, v) else (a, b)) = (a, v) from by simp,
        lookup_cons, lookup_cons, ih]
      by_cases hk' : k' = a <;> simp [hk', lookup_cons]
    · rw [show (if (a, b).1 = k then (k, v) else (a, b)) = (a, b) from by simp [hak],
        lookup_cons, lookup_cons, ih]
      by_cases hk'a : k' = a
      · subst hk'a
        simp [hak]
      · simp [hk'a, lookup_cons, show ¬ k = a from fun h => hak h.symm]

/-- Lookup in a list extended by one binding at the end. -/
theorem lookup_append_single (d : List (String × Option Int)) (k : String)
    (v : Option Int) (k' : String) :
    List.lookup k' (d ++ [(k, v)]) =
      match List.lookup k' d with
      | some w => some w
      | none => if k' = k then some v else none := by
  induction d with
  | nil =>
    rw [List.nil_append, lookup_cons]
    simp [List.lookup]
  | cons p rest ih =>
    obtain ⟨a, b⟩ := p
    rw [List.cons_append, lookup_cons, lookup_cons, ih]
    by_cases hk'a : k' = a <;> simp [hk'a]

/-- Lookup after a Python dict assignment `d[k] = v`. -/
theorem lookup_dictSet (d : List (String × Option Int)) (k : String)
    (v : Option Int) (k' : String) :
    List.lookup k' (dictSet d k v) =
      if k' = k then some v else List.lookup k' d := by
  unfold dictSet
  cases hmem : List.lookup k d with
  | none =>
    rw [if_neg (by simp [hmem]), lookup_append_single]
    by_cases hk' : k' = k
    · subst hk'
      simp [hmem]
    · simp [hk']
      cases List.lookup k' d <;> simp
  | some w =>
    rw [if_pos (by simp [hmem]), lookup_map_replace]
    by_cases hk' : k' = k
    · simp [hk', hmem]
    · simp [hk']

/-- The token name a response would be stored under, if any. -/
def respTokenName (r : RpcResp) : Option String :=
  (id_to_token r.id).map Token.name

/-- Two responses stored under the same token name carry the same id
(names are unique in `TOKENS`). -/
theorem respTokenName_id_unique (n : String) (r r' : RpcResp)
    (h1 : respTokenName r = some n) (h2 : respTokenName r' = some n) :
    r.id = r'.id := by
  unfold respTokenName id_to_token at h1 h2
  cases hr : r.id with
  | none => rw [hr] at h1; cases h1
  | some i =>
    cases hr' : r'.id with
    | none => rw [hr'] at h2; cases h2
    | some i' =>
      rw [hr] at h1
      rw [hr'] at h2
      rcases Option.map_eq_some'.mp h1 with ⟨t, ht, htn⟩
      rcases Option.map_eq_some'.mp h2 with ⟨t', ht', htn'⟩
      rw [tokens_name_inj i i' t t' ht ht' (htn.trans htn'.symm)]

/-- If no response stores under name `n`, the accumulated dict value at
`n` is untouched by the response loop. -/
theorem lookup_process_of_not_mem (n : String) :
    ∀ (rs : List RpcResp) (acc : List (String × Option Int)),
      (∀ r ∈ rs, respTokenName r ≠ some n) →
      List.lookup n (processResponses acc rs) = List.lookup n acc := by
  intro rs
  induction rs with
  | nil => intro acc _; simp [processResponses]
  | cons r rest ih =>
    intro acc h
    cases hid : id_to_token r.id with
    | none =>
      simp only [processResponses, hid]
      exact ih acc (fun r' hr' => h r' (by simp [hr']))
    | some tok =>
      simp only [processResponses, hid]
      rw [ih _ (fun r' hr' => h r' (by simp [hr'])), lookup_dictSet, if_neg ?_]
      intro he
      exact h r (by simp) (by simp [respTokenName, hid, ← he])

/-- With pairwise distinct response ids, looking up a name in the
decoded dict finds the decode of the unique matching response. -/
theorem lookup_process_nodup (n : String) :
    ∀ (rs : List RpcResp) (acc : List (String × Option Int)),
      (rs.map RpcResp.id).Nodup →
      List.lookup n (processResponses acc rs) =
        (match rs.find? (fun r => respTokenName r == some n) with
          | some r => some (decodeResult r.result)
          | none => List.lookup n acc) := by
  intro rs
  induction rs with
  | nil => intro acc _; simp [processResponses]
  | cons r rest ih =>
    intro acc hnd
    rw [List.map_cons, List.nodup_cons] at hnd
    cases hpr : (respTokenName r == some n) with
    | true =>
      have hr : respTokenName r = some n := by simpa using hpr
      have hrest : ∀ r' ∈ rest, respTokenName r' ≠ some n := by
        intro r' hr' he
        have hmem := List.mem_map_of_mem RpcResp.id hr'
        rw [← respTokenName_id_unique n r r' hr he] at hmem
        exact hnd.1 hmem
      rw [show List.find? (fun r' => respTokenName r' == some n) (r :: rest) =
        some r from List.find?_cons_of_pos rest hpr]
      rcases Option.map_eq_some'.mp
        (show (id_to_token r.id).map Token.name = some n from hr) with ⟨tok, htok, htokn⟩
      simp only [processResponses, htok]
      rw [lookup_process_of_not_mem n rest _ hrest, lookup_dictSet, htokn,
        if_pos rfl]
    | false =>
      have hr : respTokenName r ≠ some n := by simpa using hpr
      rw [show List.find? (fun r' => respTokenName r' == some n) (r :: rest) =
        List.find? (fun r' => respTokenName r' == some n) rest from
        List.find?_cons_of_neg rest (by simp [hpr])]
      cases hid : id_to_token r.id with
      | none =>
        simp only [processResponses, hid]
        exact ih acc hnd.2
      | some tok =>
        simp only [processResponses, hid]
        rw [ih _ hnd.2]
        cases hfind : rest.find? (fun r' => respTokenName r' == some n) with
        | some r' => simp [hfind]
        | none =>
          simp only [hfind]
          rw [lookup_dictSet, if_neg ?_]
          intro he
          exact hr (by simp [respTokenName, hid, ← he])

/-- Searching with `find?` returns the head of the filtered list. -/
theorem find_matches_head_filter {α : Type} (p : α → Bool) :
    ∀ l : List α, l.find? p = (l.filter p).head? := by
  intro l
  induction l with
  | nil => simp
  | cons a rest ih =>
    cases hp : p a
    · rw [List.find?_cons_of_neg rest (by simp [hp]),
        List.filter_cons_of_neg (by simp [hp])]
      exact ih
    · rw [List.find?_cons_of_pos rest hp, List.filter_cons_of_pos hp]
      simp

/-- With pairwise distinct ids at most one response matches a name. -/
theorem filter_matching_le_one (n : String) :
    ∀ rs : List RpcResp, (rs.map RpcResp.id).Nodup →
      (rs.filter (fun r => respTokenName r == some n)).length ≤ 1 := by
  intro rs
  induction rs with
  | nil => simp
  | cons r rest ih =>
    intro hnd
    rw [List.map_cons, List.nodup_cons] at hnd
    cases hp : (respTokenName r == some n)
    · rw [show List.filter (fun r' => respTokenName r' == some n) (r :: rest) =
        List.filter (fun r' => respTokenName r' == some n) rest from
        List.filter_cons_of_neg (by simp [hp])]
      exact ih hnd.2
    · rw [show List.filter (fun r' => respTokenName r' == some n) (r :: rest) =
        r :: List.filter (fun r' => respTokenName r' == some n) rest from
        List.filter_cons_of_pos hp]
      have hr : respTokenName r = some n := by simpa using hp
      have hnil : rest.filter (fun r' => respTokenName r' == some n) = [] := by
        rw [List.filter_eq_nil_iff]
        intro r' hr' he
        have he' : respTokenName r' = some n := by simpa using he
        have hmem := List.mem_map_of_mem RpcResp.id hr'
        rw [← respTokenName_id_unique n r r' hr he'] at hmem
        exact hnd.1 hmem
      simp [hnil]

/-- A permutation between lists of length at most one is an equality. -/
theorem perm_eq_of_length_le_one {α : Type} {l1 l2 : List α}
    (h : l1.Perm l2) (hl : l1.length ≤ 1) : l1 = l2 := by
  cases l1 with
  | nil => exact (List.Perm.eq_nil h.symm).symm
  | cons a l =>
    cases l with
    | nil => exact List.singleton_perm.mp h
    | cons b l' => simp at hl

/-- C7 (amended): when the batch response ids are pairwise distinct,
`get_token_total_supplies` correlates purely by id, so any reordering
of the response list leaves the decoded mapping unchanged. -/
theorem readAll_perm_invariant (block_number : Nat) (rs1 rs2 : List RpcResp)
    (hperm : rs1.Perm rs2) (hnd : (rs1.map RpcResp.id).Nodup) (n : String) :
    List.lookup n (get_token_total_supplies (fun _ _ => some rs1) block_number) =
      List.lookup n (get_token_total_supplies (fun _ _ => some rs2) block_number) := by
  have hnd2 : (rs2.map RpcResp.id).Nodup :=
    ((hperm.map RpcResp.id).nodup_iff).mp hnd
  have h1 : get_token_total_supplies (fun _ _ => some rs1) block_number =
      processResponses [] rs1 := rfl
  have h2 : get_token_total_supplies (fun _ _ => some rs2) block_number =
      processResponses [] rs2 := rfl
  rw [h1, h2, lookup_process_nodup n rs1 [] hnd, lookup_process_nodup n rs2 [] hnd2,
    find_matches_head_filter, find_matches_head_filter,
    perm_eq_of_length_le_one (hperm.filter _) (filter_matching_le_one n rs1 hnd)]

/-- Two responses that both claim id 0, in both orders. -/
def dupIdResponses1 : List RpcResp := [⟨some 0, some ("0x1")⟩, ⟨some 0, some ("0x2")⟩]

/-- The same two responses, reversed. -/
def dupIdResponses2 : List RpcResp := [⟨some 0, some ("0x2")⟩, ⟨some 0, some ("0x1")⟩]

/-- C7 counterexample: with duplicate response ids (a protocol anomaly
the claim still quantifies over), reordering the responses changes the
decoded mapping — the later write wins in the Python dict. -/
theorem readAll_perm_counterexample :
    dupIdResponses1.Perm dupIdResponses2 ∧
    List.lookup ("USDC")
      (get_token_total_supplies (fun _ _ => some dupIdResponses1) 0) = some (some 2) ∧
    List.lookup ("USDC")
      (get_token_total_supplies (fun _ _ => some dupIdResponses2) 0) = some (some 1) :=
  ⟨List.Perm.swap _ _ _, rfl, rfl⟩

/-- Distinct-id responses, in both orders. -/
def twoResponsesA : List RpcResp := [⟨some 0, some ("0x1")⟩, ⟨some 1, some ("0x2")⟩]

/-- The same distinct-id responses, reversed. -/
def twoResponsesB : List RpcResp := [⟨some 1, some ("0x2")⟩, ⟨some 0, some ("0x1")⟩]

/-- C7 witness: with distinct ids the mapping is reorder-invariant. -/
theorem readAll_perm_invariant_witness :
    List.lookup ("USDC")
      (get_token_total_supplies (fun _ _ => some twoResponsesA) 0) =
    List.lookup ("USDC")
      (get_token_total_supplies (fun _ _ => some twoResponsesB) 0) :=
  readAll_perm_invariant 0 twoResponsesA twoResponsesB
    (List.Perm.swap _ _ _) (by decide) ("USDC")

/-- A response whose id matches no token is skipped (`continue` on
line 124) wherever it sits in the response list. -/
theorem process_skip_unmatched (r : RpcResp) (hid : id_to_token r.id = none) :
    ∀ (rs1 rs2 : List RpcResp) (acc : List (String × Option Int)),
      processResponses acc (rs1 ++ r :: rs2) = processResponses acc (rs1 ++ rs2) := by
  intro rs1
  induction rs1 with
  | nil =>
    intro rs2 acc
    simp [processResponses, hid]
  | cons x xs ih =>
    intro rs2 acc
    cases hx : id_to_token x.id with
    | none =>
      simp only [List.cons_append, processResponses, hx]
      exact ih rs2 acc
    | some tok =>
      simp only [List.cons_append, processResponses, hx]
      exact ih rs2 _

/-- C4 (amended): a response whose id matches no submitted request is
ignored (no crash, sibling entries unaffected); a submitted query for
which no response arrives ends up with its name absent from the
returned mapping — it is omitted, not mapped to Unavailable. -/
theorem readAll_anomalies :
    (∀ (block_number : Nat) (rs1 rs2 : List RpcResp) (r : RpcResp),
      id_to_token r.id = none →
      get_token_total_supplies (fun _ _ => some (rs1 ++ r :: rs2)) block_number =
        get_token_total_supplies (fun _ _ => some (rs1 ++ rs2)) block_number) ∧
    (∀ (block_number i : Nat) (rs : List RpcResp) (t : Token),
      TOKENS[i]? = some t → (∀ r ∈ rs, r.id ≠ some i) →
      List.lookup t.name
        (get_token_total_supplies (fun _ _ => some rs) block_number) = none) := by
  constructor
  · intro block_number rs1 rs2 r hid
    exact process_skip_unmatched r hid rs1 rs2 []
  · intro block_number i rs t ht hno
    have h1 : get_token_total_supplies (fun _ _ => some rs) block_number =
        processResponses [] rs := rfl
    rw [h1, lookup_process_of_not_mem t.name rs [] ?_]
    · simp [List.lookup]
    · intro r hr he
      unfold respTokenName id_to_token at he
      cases hrid : r.id with
      | none => rw [hrid] at he; cases he
      | some i' =>
        rw [hrid] at he
        rcases Option.map_eq_some'.mp he with ⟨t', ht', htn⟩
        rw [tokens_name_inj i' i t' t ht' ht htn] at hrid
        exact hno r hr hrid

/-- Responses for tokens 0 and 1 only; token 2 gets no response. -/
def partialResponses : List RpcResp := [⟨some 0, some ("0x1")⟩, ⟨some 1, some ("0x1")⟩]

/-- C4 counterexample: when the response for id 2 is missing, the
returned mapping contains only the two answered names; `"SFASTUSD"` is
absent (lookup is `none`), not present with an Unavailable value
(`some none`), and the retry wrapper even accepts this mapping as
complete. -/
theorem readAll_missing_is_absent :
    get_token_total_supplies (fun _ _ => some partialResponses) 5 =
      [("USDC", some 1), ("USDT", some 1)] ∧
    List.lookup ("SFASTUSD")
      (get_token_total_supplies (fun _ _ => some partialResponses) 5) = none ∧
    get_token_total_supplies_with_retries (fun _ _ _ => some partialResponses) 5 3 =
      some [("USDC", some 1), ("USDT", some 1)] :=
  ⟨rfl, rfl, rfl⟩

/-- A response with an id (99) matching no request. -/
def unmatchedResponse : RpcResp := ⟨some 99, some ("0x5")⟩

/-- C4 witness: the unmatched-id response is dropped without affecting
the sibling decode, and the unanswered name `"USDT"` is absent. -/
theorem readAll_anomalies_witness :
    get_token_total_supplies
      (fun _ _ => some [unmatchedResponse, ⟨some 0, some ("0x1")⟩]) 0 =
      get_token_total_supplies (fun _ _ => some [⟨some 0, some ("0x1")⟩]) 0 ∧
    List.lookup ("USDT")
      (get_token_total_supplies (fun _ _ => some [⟨some 0, some ("0x1")⟩]) 0) = none := by
  constructor
  · exact readAll_anomalies.1 0 [] [⟨some 0, some ("0x1")⟩] unmatchedResponse rfl
  · exact readAll_anomalies.2 0 1 [⟨some 0, some ("0x1")⟩]
      ⟨"USDT", "0xB75D0B03c06A926e488e2659DF1A861F860bD3d1", 6⟩ rfl (by decide)

/-- If every remaining attempt yields an empty or incomplete mapping,
the outer retry loop returns `None`. -/
theorem withRetriesLoop_all_incomplete
    (post2 : Nat → List RpcRequest → Nat → Option (List RpcResp))
    (block_number : Nat) :
    ∀ (r k : Nat),
      (∀ j, k ≤ j → j < k + r →
        suppliesComplete (get_token_total_supplies (post2 j) block_number) = false) →
      withRetriesLoop post2 block_number k r = none := by
  intro r
  induction r with
  | zero => intro k _; rfl
  | succ r ih =>
    intro k h
    have h0 : suppliesComplete (get_token_total_supplies (post2 k) block_number) = false :=
      h k (Nat.le_refl _) (by omega)
    simp only [withRetriesLoop, h0, Bool.false_eq_true, if_false]
    exact ih (k + 1) (fun j hj1 hj2 => h j (by omega) (by omega))

/-- C3 (amended): when after every one of the `max_retries` attempts
some entry is still Unavailable (or the mapping is empty), the function
returns `None`, discarding the last decoded mapping entirely instead of
returning it with its Unavailable entries. -/
theorem readAll_retries_exhausted
    (post2 : Nat → List RpcRequest → Nat → Option (List RpcResp))
    (block_number max_retries : Nat)
    (h : ∀ j, j < max_retries →
      suppliesComplete (get_token_total_supplies (post2 j) block_number) = false) :
    get_token_total_supplies_with_retries post2 block_number max_retries = none :=
  withRetriesLoop_all_incomplete post2 block_number max_retries 0
    (fun j _ hj2 => h j (by omega))

/-- Transport whose only response is undecodable on every attempt. -/
def postUndecodable : Nat → List RpcRequest → Nat → Option (List RpcResp) :=
  fun _ _ _ => some [⟨some 0, some ("not-hex")⟩]

/-- C3 counterexample: each attempt decodes to the non-empty mapping
`[("USDC", Unavailable)]`, yet after exhausting the retries the
function returns `None` — the last decoded mapping is discarded, not
returned with its Unavailable entry preserved. -/
theorem readAll_retries_exhausted_counterexample :
    get_token_total_supplies (postUndecodable 2) 5 = [("USDC", none)] ∧
    get_token_total_supplies_with_retries postUndecodable 5 3 = none :=
  ⟨rfl, rfl⟩

/-- C3 witness: the amended theorem applied to the undecodable
transport. -/
theorem readAll_retries_exhausted_witness :
    get_token_total_supplies_with_retries postUndecodable 7 3 = none :=
  readAll_retries_exhausted postUndecodable 7 3 (fun _ _ => rfl)

/-! ## Hex parser lemmas -/

/-- A hex digit is not whitespace, a sign, an underscore or an `x`. -/
theorem isHexDigit_ne (c : Char) (h : isHexDigit c = true) :
    isPySpace c = false ∧ c ≠ '+' ∧ c ≠ '-' ∧ c ≠ '_' ∧ c ≠ 'x' ∧ c ≠ 'X' := by
  refine ⟨?_, ?_, ?_, ?_, ?_, ?_⟩
  · cases hs : isPySpace c
    · rfl
    · exfalso
      have hs' : c = ' ' ∨ c = '\t' ∨ c = '\n' ∨ c = '\x0d' ∨ c = '\x0b' ∨
          c = '\x0c' := by simpa [isPySpace, or_assoc] using hs
      rcases hs' with h1 | h1 | h1 | h1 | h1 | h1 <;>
        (subst h1; exact absurd h (by decide))
  all_goals (intro he; subst he; exact absurd h (by decide))

/-- Applying `dropWhile` is the identity when nothing satisfies the predicate. -/
theorem dropWhile_eq_self_of_forall {p : Char → Bool} (l : List Char)
    (h : ∀ c ∈ l, p c = false) : l.dropWhile p = l := by
  cases l with
  | nil => rfl
  | cons a rest =>
    rw [List.dropWhile_cons_of_neg (by simp [h a (by simp)])]

/-- Whitespace stripping leaves an all-hex-digit string untouched. -/
theorem strip_eq_self_of_hex (cs : List Char)
    (h : ∀ c ∈ cs, isHexDigit c = true) :
    ((cs.dropWhile isPySpace).reverse.dropWhile isPySpace).reverse = cs := by
  have hns : ∀ c ∈ cs, isPySpace c = false := fun c hc => (isHexDigit_ne c (h c hc)).1
  rw [dropWhile_eq_self_of_forall cs hns,
    dropWhile_eq_self_of_forall cs.reverse
      (fun c hc => hns c (List.mem_reverse.mp hc)),
    List.reverse_reverse]

/-- On an all-digit run `hexCore` accumulates left to right. -/
theorem hexCore_digits :
    ∀ (cs : List Char) (acc : Nat), (∀ c ∈ cs, isHexDigit c = true) →
      hexCore cs acc = some (cs.foldl (fun a c => a * 16 + hexVal c) acc) := by
  intro cs
  induction cs with
  | nil => intro acc _; simp [hexCore]
  | cons c rest ih =>
    intro acc h
    have hc : isHexDigit c = true := h c (by simp)
    have hne : c ≠ '_' := (isHexDigit_ne c hc).2.2.2.1
    rw [hexCore.eq_def]
    simp only []
    rw [if_neg hne, if_pos hc,
      ih _ (fun c' hc' => h c' (by simp [hc'])), List.foldl_cons]

/-- A non-empty all-digit run parses to its base-16 value. -/
theorem parseDigitsStart_digits (cs : List Char) (hne : cs ≠ [])
    (h : ∀ c ∈ cs, isHexDigit c = true) :
    parseDigitsStart cs = some (cs.foldl (fun a c => a * 16 + hexVal c) 0) := by
  cases cs with
  | nil => cases hne rfl
  | cons c rest =>
    have hc := h c (by simp)
    rw [parseDigitsStart, if_pos hc,
      hexCore_digits rest (hexVal c) (fun c' hc' => h c' (by simp [hc'])),
      List.foldl_cons]
    norm_num

/-- A non-empty all-digit run has no `0x` prefix, so the unsigned
parser reduces to the digit run. -/
theorem parseUnsignedHex_digits (cs : List Char) (hne : cs ≠ [])
    (h : ∀ c ∈ cs, isHexDigit c = true) :
    parseUnsignedHex cs = some (cs.foldl (fun a c => a * 16 + hexVal c) 0) := by
  match cs, hne with
  | [c], _ =>
    exact parseDigitsStart_digits [c] (by simp) h
  | c0 :: c1 :: rest, _ =>
    have hc1 := isHexDigit_ne c1 (h c1 (by simp))
    rw [parseUnsignedHex, if_neg ?_]
    · exact parseDigitsStart_digits _ (by simp) h
    · rintro ⟨h0, hx | hx⟩
      · exact hc1.2.2.2.2.1 hx
      · exact hc1.2.2.2.2.2 hx

/-- Full `int(s, 16)` on a non-empty plain hex-digit string: its
big-endian base-16 value, as a non-negative integer. -/
theorem pythonIntHex_digits (cs : List Char) (hne : cs ≠ [])
    (h : ∀ c ∈ cs, isHexDigit c = true) :
    pythonIntHex (String.mk cs) =
      some (Int.ofNat (cs.foldl (fun a c => a * 16 + hexVal c) 0)) := by
  have hdata : (String.mk cs).data = cs := rfl
  cases cs with
  | nil => cases hne rfl
  | cons c rest =>
    have hfacts := isHexDigit_ne c (h c (by simp))
    simp only [pythonIntHex, hdata, strip_eq_self_of_hex _ h]
    rw [if_neg hfacts.2.1, if_neg hfacts.2.2.1,
      parseUnsignedHex_digits (c :: rest) (by simp) h]
    rfl

/-- C2 (amended): an absent result, `"0x"` and `"0x0"` decode to the
integer 0; every other result is handed to Python's `int(_, 16)`, so a
plain hex numeral decodes to its non-negative big-endian value, a
signed numeral such as `"-ff"` decodes to a (possibly negative) signed
integer, and a string that fails the parse (such as `"not-hex"`)
decodes to Unavailable for that entry only. -/
theorem decode_result_spec :
    decodeResult none = some 0 ∧
    decodeResult (some ("0x")) = some 0 ∧
    decodeResult (some ("0x0")) = some 0 ∧
    (∀ s : String, s ≠ "0x" → s ≠ "0x0" → decodeResult (some s) = pythonIntHex s) ∧
    (∀ cs : List Char, cs ≠ [] → (∀ c ∈ cs, isHexDigit c = true) →
      pythonIntHex (String.mk cs) =
        some (Int.ofNat (cs.foldl (fun a c => a * 16 + hexVal c) 0))) ∧
    pythonIntHex ("not-hex") = none ∧
    pythonIntHex ("-ff") = some (-255) := by
  refine ⟨rfl, rfl, rfl, ?_, pythonIntHex_digits, rfl, rfl⟩
  intro s h1 h2
  rw [decodeResult, if_neg ?_]
  rintro (h | h)
  · exact h1 h
  · exact h2 h

/-- C2 counterexample: the result string `"-ff"` is not one of the zero
sentinels, does not decode to Unavailable, and decodes to the negative
integer `-255` — not to an unsigned integer. -/
theorem decode_result_counterexample :
    decodeResult (some ("-ff")) = some (-255) ∧ ((-255 : Int) < 0) ∧
    pythonIntHex ("-ff") ≠ none :=
  ⟨rfl, by decide, by decide⟩

/-- C2 witness: `"3e8"` is decoded through the hex parser to 1000. -/
theorem decode_result_spec_witness :
    decodeResult (some ("3e8")) = pythonIntHex ("3e8") ∧
    pythonIntHex (String.mk ['3', 'e', '8']) = some 1000 := by
  refine ⟨decode_result_spec.2.2.2.1 ("3e8") (by decide) (by decide), ?_⟩
  rw [decode_result_spec.2.2.2.2.1 ['3', 'e', '8'] (by decide) (by decide)]
  rfl

/-- Every value present in the decoded dict is the decode of some
response in the list (or was already in the accumulator). -/
theorem lookup_process_values (n : String) :
    ∀ (rs : List RpcResp) (acc : List (String × Option Int)) (w : Option Int),
      List.lookup n (processResponses acc rs) = some w →
      (∃ r ∈ rs, decodeResult r.result = w) ∨ List.lookup n acc = some w := by
  intro rs
  induction rs with
  | nil =>
    intro acc w h
    exact Or.inr (by simpa [processResponses] using h)
  | cons r rest ih =>
    intro acc w h
    cases hid : id_to_token r.id with
    | none =>
      simp only [processResponses, hid] at h
      rcases ih _ _ h with ⟨r', hr', hd⟩ | hacc
      · exact Or.inl ⟨r', by simp [hr'], hd⟩
      · exact Or.inr hacc
    | some tok =>
      simp only [processResponses, hid] at h
      rcases ih _ _ h with ⟨r', hr', hd⟩ | hacc
      · exact Or.inl ⟨r', by simp [hr'], hd⟩
      · rw [lookup_dictSet] at hacc
        by_cases hn : n = tok.name
        · rw [if_pos hn] at hacc
          exact Or.inl ⟨r, by simp, Option.some.inj hacc⟩
        · rw [if_neg hn] at hacc
          exact Or.inr hacc

/-- Python `int(s, 16)` returns a negative value only when the (stripped)
string begins with a minus sign, so `'-'` occurs in the string. -/
theorem pythonIntHex_neg_has_minus (s : String) (v : Int)
    (h : pythonIntHex s = some v) (hv : v < 0) : '-' ∈ s.data := by
  have hsub : ∀ c : Char,
      c ∈ ((s.data.dropWhile isPySpace).reverse.dropWhile isPySpace).reverse →
      c ∈ s.data := by
    intro c hc
    rw [List.mem_reverse] at hc
    have hc2 : c ∈ (s.data.dropWhile isPySpace).reverse :=
      List.Sublist.mem hc (List.dropWhile_sublist isPySpace)
    rw [List.mem_reverse] at hc2
    exact List.Sublist.mem hc2 (List.dropWhile_sublist isPySpace)
  simp only [pythonIntHex] at h
  rcases hcs : ((s.data.dropWhile isPySpace).reverse.dropWhile isPySpace).reverse
    with _ | ⟨c, rest⟩
  · rw [hcs] at h
    simp [parseUnsignedHex, parseDigitsStart] at h
  · rw [hcs] at h
    simp only [] at h
    by_cases hplus : c = '+'
    · rw [if_pos hplus] at h
      rcases Option.map_eq_some'.mp h with ⟨m, _, hvm⟩
      have hvm' : (m : Int) = v := hvm
      omega
    · rw [if_neg hplus] at h
      by_cases hminus : c = '-'
      · refine hsub '-' ?_
        rw [hcs, ← hminus]
        exact List.mem_cons_self c rest
      · rw [if_neg hminus] at h
        rcases Option.map_eq_some'.mp h with ⟨m, _, hvm⟩
        have hvm' : (m : Int) = v := hvm
        omega

/-- C9 (amended): a decoded rawValue in the returned mapping can be
negative only when the corresponding response's result string contains
a `'-'` sign; for batches whose result strings are minus-free (as every
genuine `eth_call` return is) all decoded values are non-negative. -/
theorem readAll_values_nonneg_unless_minus
    (post : List RpcRequest → Nat → Option (List RpcResp))
    (block_number : Nat) (n : String) (v : Int)
    (hv : List.lookup n (get_token_total_supplies post block_number) = some (some v))
    (hnm : ∀ rs, (call_rpc_batch (post (buildBatchPayload block_number)) 3 1).1 = some rs →
      ∀ r ∈ rs, ∀ s : String, r.result = some s → ('-') ∉ s.data) :
    0 ≤ v := by
  cases hres : (call_rpc_batch (post (buildBatchPayload block_number)) 3 1).1 with
  | none =>
    simp only [get_token_total_supplies, hres] at hv
    rw [show TOKENS.map (fun token => (token.name, (none : Option Int))) =
      [("USDC", none), ("USDT", none), ("SFASTUSD", none)] from rfl,
      lookup_cons, lookup_cons, lookup_cons] at hv
    split_ifs at hv <;> simp_all [List.lookup]
  | some rs =>
    simp only [get_token_total_supplies, hres] at hv
    rcases lookup_process_values n rs [] (some v) hv with ⟨r, hr, hd⟩ | hacc
    · cases hresult : r.result with
      | none =>
        rw [hresult] at hd
        have : (0 : Int) = v := Option.some.inj (by simpa [decodeResult] using hd)
        omega
      | some s =>
        rw [hresult] at hd
        rw [decodeResult] at hd
        by_cases hsent : s = "0x" ∨ s = "0x0"
        · rw [if_pos hsent] at hd
          have : (0 : Int) = v := Option.some.inj hd
          omega
        · rw [if_neg hsent] at hd
          by_contra hneg
          have hvlt : v < 0 := by omega
          exact hnm rs hres r hr s hresult
            (pythonIntHex_neg_has_minus s v hd hvlt)
    · simp [List.lookup] at hacc

/-- Transport answering with a signed hex string. -/
def postNegResponse : List RpcRequest → Nat → Option (List RpcResp) :=
  fun _ _ => some [⟨some 0, some ("-ff")⟩]

/-- C9 counterexample: a response result of `"-ff"` produces the
negative decoded entry `-255` in the returned mapping. -/
theorem readAll_negative_value_counterexample :
    List.lookup ("USDC") (get_token_total_supplies postNegResponse 0) =
      some (some (-255)) ∧ (-255 : Int) < 0 :=
  ⟨rfl, by decide⟩

/-- Transport answering with a plain unsigned hex string. -/
def postPlainResponse : List RpcRequest → Nat → Option (List RpcResp) :=
  fun _ _ => some [⟨some 0, some ("0x3e8")⟩]

/-- C9 witness: the minus-free response `"0x3e8"` yields a non-negative
decoded value. -/
theorem readAll_values_nonneg_witness : (0 : Int) ≤ 1000 := by
  refine readAll_values_nonneg_unless_minus postPlainResponse 4 ("USDC") 1000 rfl ?_
  intro rs hrs r hr s hs
  have h0 : (call_rpc_batch (postPlainResponse (buildBatchPayload 4)) 3 1).1 =
      some [(⟨some 0, some ("0x3e8")⟩ : RpcResp)] := rfl
  have hrs' : rs = [(⟨some 0, some ("0x3e8")⟩ : RpcResp)] :=
    (Option.some.inj (h0.symm.trans hrs)).symm
  subst hrs'
  have hr' : r = ⟨some 0, some ("0x3e8")⟩ := List.mem_singleton.mp hr
  subst hr'
  have hs' : s = "0x3e8" := (Option.some.inj hs).symm
  subst hs'
  decide
